import Mathlib

/-!
Verification development for the cROS client-side node runtime.

The repository ships the public headers `cros_api_call.h` and `cros_message.h`
together with the sample harness `performance-test.c`.  The queue, dispatcher,
TCPROS-session and event-engine implementations are not part of the source
tree, so those components are modelled here from the specification; the sample
harness is embedded directly from its C source.
-/

set_option autoImplicit false

namespace Cros

/-! ## RPC call records and the API call queue

Modelled from the spec: the implementations of `initApiCallQueue`,
`enqueueApiCall`, `peekApiCallQueue` and `dequeueApiCall` are only declared in
`src/include/cros_api_call.h`; the spec describes the queue as a singly-linked
FIFO whose `count` equals the number of nodes reachable from `head`, with
`tail->next == nil` and emptiness equivalent to `head == nil`.  The linked
structure is modelled as a pointer machine: nodes live in an allocation list
(`heap`), addresses are list indices, and `next`/`head`/`tail` are optional
addresses (`none` plays the role of the C `NULL`).
-/

/-- The `RosApiCall` record of `cros_api_call.h` (callbacks and the parameter
vector are opaque to the queue and are modelled elsewhere). -/
structure RosApiCall where
  id : Nat
  method : Nat
  host : String
  port : Nat
  deriving DecidableEq

/-- The `ApiCallNode` linked-list cell: payload plus optional next address. -/
structure ApiCallNode where
  call : RosApiCall
  next : Option Nat
  deriving DecidableEq

/-- The `ApiCallQueue` header: head/tail addresses and a node count. -/
structure ApiCallQueue where
  head : Option Nat
  tail : Option Nat
  count : Nat
  deriving DecidableEq

/-- A queue state: the allocation heap, the queue header, and the counter used
to assign progressive call ids. -/
structure QState where
  heap : List ApiCallNode
  queue : ApiCallQueue
  nextId : Nat
  deriving DecidableEq

/-- Modelled from the spec: `initApiCallQueue` resets the queue header to the
empty queue. -/
def initApiCallQueue (s : QState) : QState :=
  { s with queue := ⟨none, none, 0⟩ }

/-- Overwrite the `next` pointer of the node at address `t` (the C statement
`queue->tail->next = node`). -/
def setNext : List ApiCallNode → Nat → Option Nat → List ApiCallNode
  | [], _, _ => []
  | nd :: rest, 0, nx => { nd with next := nx } :: rest
  | nd :: rest, t + 1, nx => nd :: setNext rest t nx

/-- Modelled from the spec: `enqueueApiCall` appends the call at the tail
(a single fresh node is allocated and linked after the tail) and returns the
progressively assigned call id. -/
def enqueueApiCall (s : QState) (c : RosApiCall) : Nat × QState :=
  let cid := s.nextId
  let node : ApiCallNode := ⟨{ c with id := cid }, none⟩
  let addr := s.heap.length
  match s.queue.tail with
  | none =>
      (cid, ⟨s.heap ++ [node], ⟨some addr, some addr, s.queue.count + 1⟩, cid + 1⟩)
  | some t =>
      (cid, ⟨setNext s.heap t (some addr) ++ [node],
             ⟨s.queue.head, some addr, s.queue.count + 1⟩, cid + 1⟩)

/-- Modelled from the spec: `peekApiCallQueue` returns the head call without
removing it; the queue state is returned unchanged. -/
def peekApiCallQueue (s : QState) : Option RosApiCall × QState :=
  match s.queue.head with
  | none => (none, s)
  | some a => ((s.heap[a]?).map (·.call), s)

/-- Modelled from the spec: `dequeueApiCall` pops the head call, advancing
`head` to the next node and clearing `tail` when the queue becomes empty. -/
def dequeueApiCall (s : QState) : Option RosApiCall × QState :=
  match s.queue.head with
  | none => (none, s)
  | some a =>
      match s.heap[a]? with
      | none => (none, s)
      | some nd =>
          let tl : Option Nat := match nd.next with
            | none => none
            | some _ => s.queue.tail
          (some nd.call, ⟨s.heap, ⟨nd.next, tl, s.queue.count - 1⟩, s.nextId⟩)

/-- One queue operation of the interface in `cros_api_call.h`. -/
inductive QOp where
  | init : QOp
  | enq : RosApiCall → QOp
  | deq : QOp

/-- Apply one queue operation to a state. -/
def applyQOp (s : QState) : QOp → QState
  | QOp.init => initApiCallQueue s
  | QOp.enq c => (enqueueApiCall s c).2
  | QOp.deq => (dequeueApiCall s).2

/-- The state reached from a freshly initialised queue by a sequence of
operations. -/
def runQOps (ops : List QOp) : QState :=
  ops.foldl applyQOp ⟨[], ⟨none, none, 0⟩, 0⟩

/-- The chain of node addresses reachable from `cur` by following `next`
pointers, computed with explicit fuel so that the traversal is total even on a
corrupted heap. -/
def reachAddrs (heap : List ApiCallNode) : Nat → Option Nat → List Nat
  | _, none => []
  | 0, some _ => []
  | fuel + 1, some a =>
      match heap[a]? with
      | none => []
      | some nd => a :: reachAddrs heap fuel nd.next

/-- The number of `ApiCallNode` nodes reachable from the queue's `head`. -/
def reachableCount (s : QState) : Nat :=
  (reachAddrs s.heap s.heap.length s.queue.head).length

/-- `ChainRep heap cur addrs` states that following `next` pointers from `cur`
traverses exactly the addresses `addrs` and ends at `none`. -/
def ChainRep (heap : List ApiCallNode) : Option Nat → List Nat → Prop
  | cur, [] => cur = none
  | cur, a :: rest =>
      cur = some a ∧ ∃ nd, heap[a]? = some nd ∧ ChainRep heap nd.next rest

/-- Representation invariant for a queue state: some duplicate-free, in-bounds
address list is the chain from `head`; `count` is its length and `tail` its
last element. -/
def QRep (s : QState) (addrs : List Nat) : Prop :=
  ChainRep s.heap s.queue.head addrs ∧
  addrs.Nodup ∧
  (∀ a ∈ addrs, a < s.heap.length) ∧
  s.queue.count = addrs.length ∧
  s.queue.tail = addrs.getLast?

/-- The queue invariant: some address list represents the state. -/
def QInv (s : QState) : Prop := ∃ addrs, QRep s addrs

/-- The calls stored in the queue, in head-to-tail order. -/
def absQueue (s : QState) : List RosApiCall :=
  (reachAddrs s.heap s.heap.length s.queue.head).filterMap fun a => (s.heap[a]?).map (·.call)

@[simp] theorem chainRep_nil (heap : List ApiCallNode) (cur : Option Nat) :
    ChainRep heap cur [] ↔ cur = none := Iff.rfl

@[simp] theorem chainRep_cons (heap : List ApiCallNode) (cur : Option Nat) (a : Nat)
    (rest : List Nat) :
    ChainRep heap cur (a :: rest) ↔
      cur = some a ∧ ∃ nd, heap[a]? = some nd ∧ ChainRep heap nd.next rest := Iff.rfl

theorem setNext_length (heap : List ApiCallNode) (t : Nat) (nx : Option Nat) :
    (setNext heap t nx).length = heap.length := by
  induction heap generalizing t with
  | nil => rfl
  | cons nd rest ih =>
      cases t with
      | zero => rfl
      | succ t => simp [setNext, ih]

theorem getElem?_setNext (heap : List ApiCallNode) (t a : Nat) (nx : Option Nat) :
    (setNext heap t nx)[a]? =
      (heap[a]?).map (fun nd => if a = t then { nd with next := nx } else nd) := by
  induction heap generalizing t a with
  | nil => simp [setNext]
  | cons nd rest ih =>
      cases t with
      | zero =>
          cases a with
          | zero => simp [setNext]
          | succ a => simp [setNext]
      | succ t =>
          cases a with
          | zero => simp [setNext]
          | succ a => simpa [setNext] using ih t a

theorem chainRep_append (heap l : List ApiCallNode) (addrs : List Nat) :
    ∀ cur, (∀ a ∈ addrs, a < heap.length) → ChainRep heap cur addrs →
      ChainRep (heap ++ l) cur addrs := by
  induction addrs with
  | nil => intro cur _ h; exact h
  | cons a rest ih =>
      intro cur hb h
      obtain ⟨rfl, nd, hget, hrest⟩ := h
      refine ⟨rfl, nd, ?_, ih nd.next (fun x hx => hb x (List.mem_cons_of_mem _ hx)) hrest⟩
      rw [List.getElem?_append_left (hb a (List.mem_cons_self a rest))]
      exact hget

theorem chainRep_link (heap : List ApiCallNode) (node : ApiCallNode)
    (hnode : node.next = none) (t : Nat) (addrs : List Nat) :
    ∀ cur, ChainRep heap cur addrs → addrs.getLast? = some t → addrs.Nodup →
      (∀ a ∈ addrs, a < heap.length) →
      ChainRep (setNext heap t (some heap.length) ++ [node]) cur
        (addrs ++ [heap.length]) := by
  induction addrs with
  | nil => intro cur _ hlast _ _; simp at hlast
  | cons a rest ih =>
      intro cur h hlast hnd hb
      obtain ⟨rfl, nd, hget, hrest⟩ := h
      have ha : a < heap.length := hb a (List.mem_cons_self a rest)
      cases rest with
      | nil =>
          have hat : a = t := by simpa using hlast
          subst hat
          refine ⟨rfl, ⟨{ nd with next := some heap.length }, ?_, ?_⟩⟩
          · rw [List.getElem?_append_left (by rwa [setNext_length]), getElem?_setNext, hget]
            simp
          · refine ⟨rfl, ⟨node, ?_, hnode⟩⟩
            have hc := List.getElem?_concat_length (setNext heap a (some heap.length)) node
            rwa [setNext_length] at hc
      | cons b rest2 =>
          have htmem : t ∈ b :: rest2 := by
            have hgl : (b :: rest2).getLast? = some t := by simpa using hlast
            exact List.mem_of_mem_getLast? (by simp [hgl])
          have hat : a ≠ t := by
            intro he
            exact (List.nodup_cons.1 hnd).1 (he ▸ htmem)
          refine ⟨rfl, ⟨nd, ?_, ?_⟩⟩
          · rw [List.getElem?_append_left (by rwa [setNext_length]), getElem?_setNext, hget]
            simp [hat]
          · exact ih nd.next hrest (by simpa using hlast) (List.nodup_cons.1 hnd).2
              (fun x hx => hb x (List.mem_cons_of_mem _ hx))

theorem qrep_initApiCallQueue (s : QState) : QRep (initApiCallQueue s) [] :=
  ⟨rfl, List.nodup_nil, by simp, rfl, rfl⟩

theorem qrep_enqueue (s : QState) (c : RosApiCall) (addrs : List Nat) (h : QRep s addrs) :
    QRep (enqueueApiCall s c).2 (addrs ++ [s.heap.length]) := by
  obtain ⟨hchain, hnd, hb, hcount, htail⟩ := h
  have hfresh : s.heap.length ∉ addrs := fun hm => absurd (hb _ hm) (by omega)
  cases htl : s.queue.tail with
  | none =>
      have haddrs : addrs = [] := by
        cases addrs with
        | nil => rfl
        | cons a rest => rw [htl] at htail; exact absurd htail.symm (by simp)
      subst haddrs
      have hhead : s.queue.head = none := hchain
      simp only [enqueueApiCall, htl]
      refine ⟨⟨rfl, ⟨⟨{ c with id := s.nextId }, none⟩, ?_, rfl⟩⟩, by simp, ?_, ?_, rfl⟩
      · exact List.getElem?_concat_length _ _
      · intro a ha
        simp only [List.nil_append, List.mem_singleton] at ha
        subst ha
        simp
      · simpa using hcount
  | some t =>
      have hlast : addrs.getLast? = some t := by rw [← htail, htl]
      simp only [enqueueApiCall, htl]
      refine ⟨?_, ?_, ?_, ?_, ?_⟩
      · exact chainRep_link s.heap _ rfl t addrs s.queue.head hchain hlast hnd hb
      · simp [List.nodup_append, hnd, hfresh]
      · intro a ha
        rw [List.length_append, setNext_length, List.length_singleton]
        rcases List.mem_append.1 ha with h1 | h1
        · exact Nat.lt_succ_of_lt (hb a h1)
        · simp only [List.mem_singleton] at h1
          omega
      · simp [hcount]
      · simp

theorem qrep_dequeue (s : QState) (addrs : List Nat) (h : QRep s addrs) :
    QRep (dequeueApiCall s).2 addrs.tail := by
  obtain ⟨hchain, hnd, hb, hcount, htail⟩ := h
  cases addrs with
  | nil =>
      have hhead : s.queue.head = none := hchain
      simp only [dequeueApiCall, hhead]
      exact ⟨hchain, hnd, hb, hcount, htail⟩
  | cons a rest =>
      obtain ⟨hhead, nd, hget, hrest⟩ := hchain
      simp only [dequeueApiCall, hhead, hget, List.tail_cons]
      refine ⟨hrest, (List.nodup_cons.1 hnd).2,
        fun x hx => hb x (List.mem_cons_of_mem _ hx), ?_, ?_⟩
      · rw [hcount]; simp
      · cases hnx : nd.next with
        | none =>
            have hrest0 : rest = [] := by
              rw [hnx] at hrest
              cases rest with
              | nil => rfl
              | cons b rest2 => exact absurd hrest.1 (by simp)
            subst hrest0
            simp
        | some b =>
            rw [hnx] at hrest
            cases rest with
            | nil => exact absurd hrest (by simp)
            | cons b2 rest2 =>
                simp only
                rw [htail]
                simp

theorem qinv_foldl (ops : List QOp) : ∀ s, QInv s → QInv (ops.foldl applyQOp s) := by
  induction ops with
  | nil => intro s h; exact h
  | cons op rest ih =>
      intro s h
      refine ih _ ?_
      obtain ⟨addrs, hrep⟩ := h
      cases op with
      | init => exact ⟨[], qrep_initApiCallQueue s⟩
      | enq c => exact ⟨_, qrep_enqueue s c addrs hrep⟩
      | deq => exact ⟨_, qrep_dequeue s addrs hrep⟩

theorem qinv_runQOps (ops : List QOp) : QInv (runQOps ops) :=
  qinv_foldl ops _ ⟨[], rfl, List.nodup_nil, by simp, rfl, rfl⟩

theorem reachAddrs_none (heap : List ApiCallNode) (fuel : Nat) :
    reachAddrs heap fuel none = [] := by
  cases fuel <;> rfl

theorem reachAddrs_of_chainRep (heap : List ApiCallNode) (addrs : List Nat) :
    ∀ cur fuel, ChainRep heap cur addrs → addrs.length ≤ fuel →
      reachAddrs heap fuel cur = addrs := by
  induction addrs with
  | nil => intro cur fuel h _; rw [h]; exact reachAddrs_none heap fuel
  | cons a rest ih =>
      intro cur fuel h hf
      obtain ⟨rfl, nd, hget, hrest⟩ := h
      cases fuel with
      | zero => simp at hf
      | succ f =>
          simp only [reachAddrs, hget]
          rw [ih nd.next f hrest (by simpa using Nat.le_of_succ_le_succ hf)]

theorem length_le_of_nodup_lt (addrs : List Nat) (n : Nat) (hnd : addrs.Nodup)
    (hb : ∀ a ∈ addrs, a < n) : addrs.length ≤ n := by
  have h1 : addrs.toFinset.card = addrs.length := List.toFinset_card_of_nodup hnd
  have h2 : addrs.toFinset ⊆ Finset.range n := by
    intro a ha
    rw [List.mem_toFinset] at ha
    exact Finset.mem_range.mpr (hb a ha)
  calc addrs.length = addrs.toFinset.card := h1.symm
    _ ≤ (Finset.range n).card := Finset.card_le_card h2
    _ = n := Finset.card_range n

theorem qrep_reachAddrs (s : QState) (addrs : List Nat) (h : QRep s addrs) :
    reachAddrs s.heap s.heap.length s.queue.head = addrs :=
  reachAddrs_of_chainRep _ _ _ _ h.1
    (length_le_of_nodup_lt _ _ h.2.1 h.2.2.1)

theorem chainRep_getLast (heap : List ApiCallNode) (addrs : List Nat) :
    ∀ cur t, ChainRep heap cur addrs → addrs.getLast? = some t →
      ∃ nd, heap[t]? = some nd ∧ nd.next = none := by
  induction addrs with
  | nil => intro cur t _ hl; simp at hl
  | cons a rest ih =>
      intro cur t h hl
      obtain ⟨rfl, nd, hget, hrest⟩ := h
      cases rest with
      | nil =>
          have hat : a = t := by simpa using hl
          subst hat
          exact ⟨nd, hget, hrest⟩
      | cons b rest2 =>
          exact ih nd.next t hrest (by simpa using hl)

theorem qrep_absQueue (s : QState) (addrs : List Nat) (h : QRep s addrs) :
    absQueue s = addrs.filterMap fun a => (s.heap[a]?).map (·.call) := by
  rw [absQueue, qrep_reachAddrs s addrs h]

theorem calls_enqueue_stable (s : QState) (c : RosApiCall) (addrs : List Nat)
    (hb : ∀ a ∈ addrs, a < s.heap.length) :
    (addrs.filterMap fun a => ((enqueueApiCall s c).2.heap[a]?).map (·.call))
      = addrs.filterMap fun a => (s.heap[a]?).map (·.call) := by
  apply List.filterMap_congr
  intro a ha
  have hlt := hb a ha
  cases htl : s.queue.tail with
  | none =>
      simp only [enqueueApiCall, htl]
      rw [List.getElem?_append_left hlt]
  | some t =>
      simp only [enqueueApiCall, htl]
      rw [List.getElem?_append_left (by rwa [setNext_length]), getElem?_setNext]
      cases hga : s.heap[a]? with
      | none => rfl
      | some nd => by_cases hat : a = t <;> simp [hat]

theorem newNode_lookup (s : QState) (c : RosApiCall) :
    (enqueueApiCall s c).2.heap[s.heap.length]? =
      some ⟨{ c with id := s.nextId }, none⟩ := by
  cases htl : s.queue.tail with
  | none =>
      simp only [enqueueApiCall, htl]
      exact List.getElem?_concat_length _ _
  | some t =>
      simp only [enqueueApiCall, htl]
      have hc := List.getElem?_concat_length (setNext s.heap t (some s.heap.length))
        (⟨{ c with id := s.nextId }, none⟩ : ApiCallNode)
      rwa [setNext_length] at hc

theorem absQueue_enqueue (s : QState) (c : RosApiCall) (addrs : List Nat)
    (h : QRep s addrs) :
    absQueue (enqueueApiCall s c).2 = absQueue s ++ [{ c with id := s.nextId }] := by
  have h2 := qrep_enqueue s c addrs h
  rw [qrep_absQueue _ _ h2, qrep_absQueue _ _ h, List.filterMap_append,
    calls_enqueue_stable s c addrs h.2.2.1]
  congr 1
  rw [List.filterMap_cons, newNode_lookup]
  rfl

/-- C1: for every sequence of `initApiCallQueue` / `enqueueApiCall` /
`dequeueApiCall` operations, the `count` field equals the number of
`ApiCallNode` nodes reachable from `head`, the tail node's `next` is nil
whenever the queue is non-empty, and the queue is empty (count zero) iff
`head` is nil. -/
theorem C1_queue_integrity (ops : List QOp) :
    (runQOps ops).queue.count = reachableCount (runQOps ops) ∧
    ((runQOps ops).queue.head = none ∨
      ∃ t nd, (runQOps ops).queue.tail = some t ∧ (runQOps ops).heap[t]? = some nd ∧
        nd.next = none) ∧
    ((runQOps ops).queue.count = 0 ↔ (runQOps ops).queue.head = none) := by
  obtain ⟨addrs, hrep⟩ := qinv_runQOps ops
  obtain ⟨hchain, hnd, hb, hcount, htail⟩ := hrep
  have hreach := qrep_reachAddrs _ _ ⟨hchain, hnd, hb, hcount, htail⟩
  refine ⟨?_, ?_, ?_⟩
  · rw [reachableCount, hreach, hcount]
  · cases addrs with
    | nil => exact Or.inl hchain
    | cons a rest =>
        refine Or.inr ?_
        cases hgl : (a :: rest).getLast? with
        | none => simp at hgl
        | some t =>
            obtain ⟨nd, hget, hnx⟩ := chainRep_getLast _ _ _ t hchain hgl
            exact ⟨t, nd, htail.trans hgl, hget, hnx⟩
  · constructor
    · intro h0
      rw [hcount] at h0
      rw [List.length_eq_zero.mp h0] at hchain
      exact hchain
    · intro hh
      cases addrs with
      | nil => simpa using hcount
      | cons a rest =>
          rw [hh] at hchain
          exact absurd hchain.1 (by simp)

/-- C2: FIFO queue-operation semantics on every reachable queue state:
`enqueueApiCall` appends the call (with its assigned progressive id) at the
tail and returns that id, `peekApiCallQueue` returns the head call and leaves
the state unchanged, and `dequeueApiCall` removes and returns the head call,
so calls are dequeued in the order they were enqueued. -/
theorem C2_fifo_semantics (ops : List QOp) (c : RosApiCall) :
    (enqueueApiCall (runQOps ops) c).1 = (runQOps ops).nextId ∧
    absQueue (enqueueApiCall (runQOps ops) c).2
      = absQueue (runQOps ops) ++ [{ c with id := (runQOps ops).nextId }] ∧
    (peekApiCallQueue (runQOps ops)).1 = (absQueue (runQOps ops)).head? ∧
    (peekApiCallQueue (runQOps ops)).2 = runQOps ops ∧
    (dequeueApiCall (runQOps ops)).1 = (absQueue (runQOps ops)).head? ∧
    absQueue (dequeueApiCall (runQOps ops)).2 = (absQueue (runQOps ops)).tail := by
  obtain ⟨addrs, hrep⟩ := qinv_runQOps ops
  set s := runQOps ops with hs
  refine ⟨?_, absQueue_enqueue s c addrs hrep, ?_, ?_, ?_, ?_⟩
  · cases htl : s.queue.tail <;> simp [enqueueApiCall, htl]
  · cases addrs with
    | nil =>
        have hhead : s.queue.head = none := hrep.1
        rw [qrep_absQueue _ _ hrep]
        simp [peekApiCallQueue, hhead]
    | cons a rest =>
        obtain ⟨hhead, nd, hget, _⟩ := hrep.1
        rw [qrep_absQueue _ _ hrep]
        simp [peekApiCallQueue, hhead, hget, List.filterMap_cons]
  · cases hhd : s.queue.head <;> simp [peekApiCallQueue, hhd]
  · cases addrs with
    | nil =>
        have hhead : s.queue.head = none := hrep.1
        rw [qrep_absQueue _ _ hrep]
        simp [dequeueApiCall, hhead]
    | cons a rest =>
        obtain ⟨hhead, nd, hget, _⟩ := hrep.1
        rw [qrep_absQueue _ _ hrep]
        simp [dequeueApiCall, hhead, hget, List.filterMap_cons]
  · have h2 := qrep_dequeue s addrs hrep
    rw [qrep_absQueue _ _ h2, qrep_absQueue _ _ hrep]
    have hheap : (dequeueApiCall s).2.heap = s.heap := by
      cases hhd : s.queue.head with
      | none => simp [dequeueApiCall, hhd]
      | some a =>
          cases hga : s.heap[a]? with
          | none => simp [dequeueApiCall, hhd, hga]
          | some nd => simp [dequeueApiCall, hhd, hga]
    rw [hheap]
    cases addrs with
    | nil => rfl
    | cons a rest =>
        obtain ⟨hhead, nd, hget, _⟩ := hrep.1
        simp [List.filterMap_cons, hget]

/-! ## API call dispatcher

Modelled from the spec: the dispatcher and event-engine loop (spec section
4.4 and 4.8) are not part of the shipped sources.  A live call record is
either `queued` or `inflight`; completion (success with a possibly-null
fetched result, or failure by connection refusal, parse error or timeout)
invokes the result callback once, invokes the result-free callback once when
the fetched result is non-null, frees the parameter vector once, and retires
the record to a `done` ledger.  The engine may start a queued call only when
its endpoint has no in-flight call and the call is the earliest queued call
for that endpoint.
-/

/-- The lifecycle phase of a live (not yet completed) RPC call record. -/
inductive CallPhase where
  | queued : CallPhase
  | inflight : CallPhase
  deriving DecidableEq

/-- A live `RosApiCall` record as seen by the dispatcher. -/
structure LiveCall where
  id : Nat
  host : String
  port : Nat
  phase : CallPhase
  deriving DecidableEq

/-- The failure modes of an outbound RPC listed by the spec. -/
inductive FailKind where
  | connRefused : FailKind
  | parseError : FailKind
  | timedOut : FailKind
  deriving DecidableEq

/-- Completion outcome of an RPC: success carries whether the fetched result
was non-null; failure carries the failure kind. -/
inductive CallOutcome where
  | success : Bool → CallOutcome
  | failure : FailKind → CallOutcome
  deriving DecidableEq

/-- Whether the fetched result materialised as a non-null pointer. -/
def resultNonNull : CallOutcome → Bool
  | CallOutcome.success b => b
  | CallOutcome.failure _ => false

/-- Ledger entry for a completed call: how often each callback ran and what
the callback argument was. -/
structure DoneRecord where
  id : Nat
  host : String
  port : Nat
  outcome : CallOutcome
  cb_invocations : Nat
  cb_null_result : Bool
  free_result_invocations : Nat
  params_freed : Nat
  deriving DecidableEq

/-- Modelled from the spec: completing a call invokes `result_callback` once
(with a null result exactly when no result was fetched), invokes
`free_result_callback` once when the result is non-null, and frees the
parameter vector once in `freeRosApiCall`. -/
def mkDoneRecord (c : LiveCall) (out : CallOutcome) : DoneRecord :=
  { id := c.id, host := c.host, port := c.port, outcome := out
    cb_invocations := 1
    cb_null_result := !resultNonNull out
    free_result_invocations := if resultNonNull out then 1 else 0
    params_freed := 1 }

/-- Dispatcher state: live records in arrival order, the ledger of completed
calls, and the progressive id counter. -/
structure DispState where
  live : List LiveCall
  done : List DoneRecord
  next_id : Nat
  deriving DecidableEq

/-- Events of the dispatcher: a call is enqueued, the engine starts the RPC
conversation for a queued call, or an in-flight call completes. -/
inductive DispEvent where
  | enqueue : String → Nat → DispEvent
  | start : Nat → DispEvent
  | complete : Nat → CallOutcome → DispEvent

/-- Number of in-flight live calls targeting endpoint `(h, p)`. -/
def inflightCount (live : List LiveCall) (h : String) (p : Nat) : Nat :=
  live.countP fun c => c.host == h && c.port == p && c.phase == CallPhase.inflight

/-- Whether some call to endpoint `(h, p)` is currently in flight. -/
def endpointBusy (live : List LiveCall) (h : String) (p : Nat) : Bool :=
  live.any fun c => c.host == h && c.port == p && c.phase == CallPhase.inflight

/-- The id of the earliest queued call for endpoint `(h, p)`, if any. -/
def firstQueuedAt (live : List LiveCall) (h : String) (p : Nat) : Option Nat :=
  ((live.filter fun c => c.host == h && c.port == p &&
      c.phase == CallPhase.queued).head?).map (·.id)

/-- Mark the first live record with the given id as in flight. -/
def startCall : List LiveCall → Nat → List LiveCall
  | [], _ => []
  | c :: rest, cid =>
      if c.id = cid then { c with phase := CallPhase.inflight } :: rest
      else c :: startCall rest cid

/-- Modelled from the spec: dispatcher transition for one event.  `start` is
guarded by the dispatcher policy (one in-flight call per endpoint, earliest
queued call first); `complete` retires an in-flight record to the ledger. -/
def applyDispEvent (s : DispState) : DispEvent → DispState
  | DispEvent.enqueue h p =>
      { s with live := s.live ++ [⟨s.next_id, h, p, CallPhase.queued⟩],
               next_id := s.next_id + 1 }
  | DispEvent.start cid =>
      match s.live.find? (fun c => c.id == cid) with
      | none => s
      | some c =>
          if c.phase == CallPhase.queued && !endpointBusy s.live c.host c.port
              && firstQueuedAt s.live c.host c.port == some cid then
            { s with live := startCall s.live cid }
          else s
  | DispEvent.complete cid out =>
      match s.live.find? (fun c => c.id == cid) with
      | none => s
      | some c =>
          if c.phase == CallPhase.inflight then
            { s with live := s.live.filter (fun d => !(d.id == cid)),
                     done := s.done ++ [mkDoneRecord c out] }
          else s

/-- The dispatcher state reached from the empty state by a sequence of
events. -/
def dispRun (events : List DispEvent) : DispState :=
  events.foldl applyDispEvent ⟨[], [], 0⟩

/-- Exactly-once bookkeeping for a completed call. -/
def doneOk (r : DoneRecord) : Bool :=
  r.cb_invocations == 1 && r.params_freed == 1 &&
  r.free_result_invocations == (if resultNonNull r.outcome then 1 else 0) &&
  r.cb_null_result == !resultNonNull r.outcome

/-- Failure-path bookkeeping: on failure the callback argument was null, and
the record was freed regardless of the outcome. -/
def failureNullOk (r : DoneRecord) : Bool :=
  match r.outcome with
  | CallOutcome.failure _ =>
      r.cb_null_result && r.cb_invocations == 1 && r.params_freed == 1
  | CallOutcome.success _ => r.params_freed == 1

/-- Dispatcher invariant: live ids are strictly increasing (arrival order),
all issued ids are below the counter and pairwise distinct across the live
list and the ledger, at most one call is in flight per endpoint, and every
ledger entry has exactly-once bookkeeping. -/
def DInv (s : DispState) : Prop :=
  (s.live.map (·.id)).Pairwise (· < ·) ∧
  (∀ i ∈ s.live.map (·.id) ++ s.done.map (·.id), i < s.next_id) ∧
  (s.live.map (·.id) ++ s.done.map (·.id)).Nodup ∧
  (∀ h p, inflightCount s.live h p ≤ 1) ∧
  s.done.all doneOk = true

theorem startCall_map_id (l : List LiveCall) (cid : Nat) :
    (startCall l cid).map (·.id) = l.map (·.id) := by
  induction l with
  | nil => rfl
  | cons c rest ih => by_cases h : c.id = cid <;> simp [startCall, h, ih]

theorem inflightCount_of_not_busy (l : List LiveCall) (h : String) (p : Nat)
    (hb : endpointBusy l h p = false) : inflightCount l h p = 0 := by
  rw [inflightCount, List.countP_eq_zero]
  intro c hc
  rw [endpointBusy, List.any_eq_false] at hb
  exact hb c hc

theorem inflightCount_cons (d : LiveCall) (rest : List LiveCall) (h : String)
    (p : Nat) :
    inflightCount (d :: rest) h p = inflightCount rest h p +
      (if d.host == h && d.port == p && d.phase == CallPhase.inflight
        then 1 else 0) := by
  simp [inflightCount, List.countP_cons]

theorem inflightCount_cons_inflight (d : LiveCall) (rest : List LiveCall)
    (h : String) (p : Nat) :
    inflightCount ({ d with phase := CallPhase.inflight } :: rest) h p =
      inflightCount rest h p + (if d.host == h && d.port == p then 1 else 0) := by
  simp [inflightCount, List.countP_cons,
    show ((CallPhase.inflight == CallPhase.inflight) : Bool) = true from rfl]

theorem inflightCount_startCall (l : List LiveCall) (cid : Nat) (h : String) (p : Nat)
    (c : LiveCall) (hfind : l.find? (fun x => x.id == cid) = some c) :
    inflightCount (startCall l cid) h p ≤
      inflightCount l h p + (if c.host == h && c.port == p then 1 else 0) := by
  induction l with
  | nil => simp at hfind
  | cons d rest ih =>
      cases hda : (d.id == cid) with
      | false =>
          simp only [List.find?_cons, hda, cond_false] at hfind
          have hdn : ¬d.id = cid := by simpa using hda
          have hrec := ih hfind
          simp only [startCall, if_neg hdn]
          rw [inflightCount_cons d (startCall rest cid), inflightCount_cons d rest]
          omega
      | true =>
          simp only [List.find?_cons, hda, cond_true, Option.some.injEq] at hfind
          subst hfind
          have hdy : d.id = cid := by simpa using hda
          simp only [startCall, if_pos hdy]
          rw [inflightCount_cons_inflight, inflightCount_cons]
          omega

theorem dinvMk (lv : List LiveCall) (dn : List DoneRecord) (nid : Nat)
    (h1 : (lv.map (·.id)).Pairwise (· < ·))
    (h2 : ∀ i ∈ lv.map (·.id) ++ dn.map (·.id), i < nid)
    (h3 : (lv.map (·.id) ++ dn.map (·.id)).Nodup)
    (h4 : ∀ h p, inflightCount lv h p ≤ 1)
    (h5 : dn.all doneOk = true) : DInv ⟨lv, dn, nid⟩ :=
  ⟨h1, h2, h3, h4, h5⟩

theorem dinv_applyDispEvent (s : DispState) (ev : DispEvent) (h : DInv s) :
    DInv (applyDispEvent s ev) := by
  obtain ⟨hpw, hbound, hnd, hcnt, hdone⟩ := h
  cases ev with
  | enqueue eh ep =>
      refine dinvMk (s.live ++ [⟨s.next_id, eh, ep, CallPhase.queued⟩]) s.done
        (s.next_id + 1) ?_ ?_ ?_ ?_ hdone
      · simp only [List.map_append]
        rw [List.pairwise_append]
        refine ⟨hpw, by simp, ?_⟩
        intro a ha b hb
        simp only [List.map_cons, List.map_nil, List.mem_singleton] at hb
        subst hb
        exact hbound a (List.mem_append_left _ ha)
      · intro i hi
        simp only [List.map_append, List.map_cons, List.map_nil] at hi
        rcases List.mem_append.1 hi with h1 | h1
        · rcases List.mem_append.1 h1 with h2 | h2
          · exact Nat.lt_succ_of_lt (hbound i (List.mem_append_left _ h2))
          · simp only [List.mem_singleton] at h2
            omega
        · exact Nat.lt_succ_of_lt (hbound i (List.mem_append_right _ h1))
      · simp only [List.map_append, List.map_cons, List.map_nil,
          List.append_assoc, List.singleton_append]
        rw [(List.perm_middle).nodup_iff]
        refine List.nodup_cons.2 ⟨fun hm => ?_, hnd⟩
        exact absurd (hbound _ hm) (lt_irrefl _)
      · intro hh pp
        simp only [inflightCount, List.countP_append, List.countP_cons,
          List.countP_nil]
        have hq : (((⟨s.next_id, eh, ep, CallPhase.queued⟩ : LiveCall).host == hh &&
            (⟨s.next_id, eh, ep, CallPhase.queued⟩ : LiveCall).port == pp &&
            (⟨s.next_id, eh, ep, CallPhase.queued⟩ : LiveCall).phase ==
              CallPhase.inflight) : Bool) = false := by
          simp
        rw [hq]
        simpa [inflightCount] using hcnt hh pp
  | start cid =>
      cases hf : s.live.find? (fun c => c.id == cid) with
      | none =>
          simp only [applyDispEvent, hf]
          exact ⟨hpw, hbound, hnd, hcnt, hdone⟩
      | some c =>
          simp only [applyDispEvent, hf]
          by_cases hg : (c.phase == CallPhase.queued && !endpointBusy s.live c.host c.port
              && firstQueuedAt s.live c.host c.port == some cid) = true
          · rw [if_pos hg]
            have hbusy : endpointBusy s.live c.host c.port = false := by
              simp only [Bool.and_eq_true, Bool.not_eq_true'] at hg
              exact hg.1.2
            refine ⟨?_, ?_, ?_, ?_, hdone⟩
            · show ((startCall s.live cid).map (·.id)).Pairwise (· < ·)
              simpa only [startCall_map_id] using hpw
            · intro i hi
              show i < s.next_id
              have : i ∈ s.live.map (·.id) ++ s.done.map (·.id) := by
                rwa [startCall_map_id] at hi
              exact hbound i this
            · show ((startCall s.live cid).map (·.id) ++ s.done.map (·.id)).Nodup
              simpa only [startCall_map_id] using hnd
            · intro hh pp
              show inflightCount (startCall s.live cid) hh pp ≤ 1
              have hle := inflightCount_startCall s.live cid hh pp c hf
              by_cases hhp : (c.host == hh && c.port == pp) = true
              · have hhp2 := hhp
                simp only [Bool.and_eq_true, beq_iff_eq] at hhp2
                have h0 : inflightCount s.live hh pp = 0 := by
                  rw [← hhp2.1, ← hhp2.2]
                  exact inflightCount_of_not_busy _ _ _ hbusy
                rw [if_pos hhp, h0] at hle
                omega
              · rw [if_neg hhp] at hle
                have := hcnt hh pp
                omega
          · rw [if_neg hg]
            exact ⟨hpw, hbound, hnd, hcnt, hdone⟩
  | complete cid out =>
      cases hf : s.live.find? (fun c => c.id == cid) with
      | none =>
          simp only [applyDispEvent, hf]
          exact ⟨hpw, hbound, hnd, hcnt, hdone⟩
      | some c =>
          simp only [applyDispEvent, hf]
          by_cases hg : (c.phase == CallPhase.inflight) = true
          · rw [if_pos hg]
            have hcmem : c ∈ s.live := List.mem_of_find?_eq_some hf
            have hcid : c.id = cid := by
              have := List.find?_some hf
              simpa using this
            have hsub : List.Sublist
                ((s.live.filter (fun d => !(d.id == cid))).map (·.id))
                (s.live.map (·.id)) := (List.filter_sublist _).map _
            refine ⟨hpw.sublist hsub, ?_, ?_, ?_, ?_⟩
            · intro i hi
              show i < s.next_id
              simp only [List.map_append, List.map_cons, List.map_nil] at hi
              rcases List.mem_append.1 hi with h1 | h1
              · exact hbound i (List.mem_append_left _ (hsub.mem h1))
              · rcases List.mem_append.1 h1 with h2 | h2
                · exact hbound i (List.mem_append_right _ h2)
                · simp only [mkDoneRecord, List.mem_singleton] at h2
                  subst h2
                  exact hbound c.id
                    (List.mem_append_left _ (List.mem_map_of_mem (·.id) hcmem))
            · show ((s.live.filter (fun d => !(d.id == cid))).map (·.id) ++
                (s.done ++ [mkDoneRecord c out]).map (·.id)).Nodup
              simp only [List.map_append, List.map_cons, List.map_nil, mkDoneRecord,
                ← List.append_assoc]
              have hperm := @List.perm_middle Nat c.id
                ((s.live.filter (fun d => !(d.id == cid))).map (·.id) ++
                  s.done.map (·.id)) []
              rw [List.append_nil] at hperm
              rw [hperm.nodup_iff]
              refine List.nodup_cons.2 ⟨?_, ?_⟩
              · intro hm
                rcases List.mem_append.1 hm with h1 | h1
                · obtain ⟨d, hdmem, hdid⟩ := List.mem_map.1 h1
                  have := (List.mem_filter.1 hdmem).2
                  rw [hdid, hcid] at this
                  simp at this
                · have hdisj := (List.nodup_append.1 hnd).2.2
                  exact hdisj (List.mem_map_of_mem (·.id) hcmem) h1
              · exact (hsub.append (List.Sublist.refl _)).nodup hnd
            · intro hh pp
              show inflightCount (s.live.filter (fun d => !(d.id == cid))) hh pp ≤ 1
              exact le_trans ((List.filter_sublist _).countP_le _) (hcnt hh pp)
            · show (s.done ++ [mkDoneRecord c out]).all doneOk = true
              rw [List.all_append, Bool.and_eq_true]
              refine ⟨hdone, ?_⟩
              cases out <;> simp [doneOk, mkDoneRecord, resultNonNull]
          · rw [if_neg hg]
            exact ⟨hpw, hbound, hnd, hcnt, hdone⟩

theorem dinv_dispRun (events : List DispEvent) : DInv (dispRun events) := by
  have hstep : ∀ (evs : List DispEvent) (s : DispState),
      DInv s → DInv (evs.foldl applyDispEvent s) := by
    intro evs
    induction evs with
    | nil => intro s h; exact h
    | cons ev rest ih => intro s h; exact ih _ (dinv_applyDispEvent s ev h)
  refine hstep events _ ⟨by simp, by simp, by simp, ?_, by simp⟩
  intro hh pp
  simp [inflightCount]

/-- C3: single in-flight call per endpoint.  In every state of the dispatcher
reachable by any event sequence, at most one live call record per `(host,
port)` endpoint is in a state other than queued, and the live records (hence
the still-queued calls of any busy endpoint) are kept in arrival order (their
progressive ids strictly increase along the list). -/
theorem C3_single_inflight_per_endpoint (events : List DispEvent) (h : String)
    (p : Nat) :
    inflightCount (dispRun events).live h p ≤ 1 ∧
    ((dispRun events).live.map (·.id)).Pairwise (· < ·) := by
  obtain ⟨hpw, _, _, hcnt, _⟩ := dinv_dispRun events
  exact ⟨hcnt h p, hpw⟩

/-- C4: callback-once / free-once.  In every reachable dispatcher state,
every completed call in the ledger had its result callback invoked exactly
once, its result-free callback invoked exactly once iff the fetched result
was non-null, and its parameter vector freed exactly once; and no call id is
ever completed twice or both live and completed. -/
theorem C4_callback_once (events : List DispEvent) :
    (dispRun events).done.all doneOk = true ∧
    ((dispRun events).live.map (·.id) ++ (dispRun events).done.map (·.id)).Nodup := by
  obtain ⟨_, _, hnd, _, hdone⟩ := dinv_dispRun events
  exact ⟨hdone, hnd⟩

/-- C5: failure-path result.  In every reachable dispatcher state, every
ledger entry that completed with a failure (connection refused, parse error
or timeout) had its result callback invoked exactly once with a null result,
and every ledger entry — success or failure — had its call record freed. -/
theorem C5_failure_null_result (events : List DispEvent) :
    (dispRun events).done.all failureNullOk = true := by
  obtain ⟨_, _, _, _, hdone⟩ := dinv_dispRun events
  rw [List.all_eq_true] at hdone ⊢
  intro r hr
  have hok := hdone r hr
  simp only [doneOk, Bool.and_eq_true, beq_iff_eq] at hok
  obtain ⟨⟨⟨hcb, hpf⟩, hfr⟩, hcn⟩ := hok
  cases hout : r.outcome with
  | success b => simp [failureNullOk, hout, hpf]
  | failure k =>
      rw [hout] at hcn
      simp only [resultNonNull] at hcn
      simp [failureNullOk, hout, hcn, hcb, hpf]

/-! ## TCPROS header validation

Modelled from the spec: `cRosMessageParseSubcriptionHeader` and the session
state machines are only declared in `src/include/cros_message.h`.  Spec
section 4.6: header validation checks `md5sum` first (a mismatch yields a
fault whose message includes both digests), then `type`; an `md5sum` of `*`
is a wildcard acceptable on the subscriber side; on a failed validation the
session transitions to `Closed` without invoking the receive callback and an
error of kind ProtocolHeader is recorded.
-/

/-- Session states of the TCPROS state machine (spec section 4.6). -/
inductive SessionState where
  | Connecting : SessionState
  | ReadingHeader : SessionState
  | WritingHeader : SessionState
  | Streaming : SessionState
  | Closed : SessionState
  deriving DecidableEq

/-- The error taxonomy of spec section 7. -/
inductive ErrKind where
  | Transport : ErrKind
  | Timeout : ErrKind
  | ProtocolHeader : ErrKind
  | ProtocolFrame : ErrKind
  | XmlrpcCodec : ErrKind
  | Registry : ErrKind
  | Usage : ErrKind
  | Cancelled : ErrKind
  deriving DecidableEq

/-- A recorded error: its kind plus the strings carried by the fault
message. -/
structure RecordedError where
  kind : ErrKind
  details : List String
  deriving DecidableEq

/-- The fields of a TCPROS topic header block. -/
structure TcprosHeader where
  callerid : String
  topic : String
  type : String
  md5sum : String
  message_definition : String
  deriving DecidableEq

/-- Modelled from the spec: header validation order is `md5sum` first (fault
details carry both digests), then `type`; `*` is accepted as a wildcard
md5sum on the subscriber side. -/
def validateTcprosHeader (expMd5 expType : String) (hdr : TcprosHeader)
    (subscriberSide : Bool) : Option RecordedError :=
  if hdr.md5sum = expMd5 ∨ (subscriberSide ∧ hdr.md5sum = "*") then
    if hdr.type = expType then none
    else some ⟨ErrKind.ProtocolHeader, [expType, hdr.type]⟩
  else
    some ⟨ErrKind.ProtocolHeader, [expMd5, hdr.md5sum]⟩

/-- A TCPROS session as far as header handling is concerned: its state, how
often the receive callback has run, and the recorded errors. -/
structure TcprosSession where
  state : SessionState
  cb_invocations : Nat
  errors : List RecordedError
  deriving DecidableEq

/-- Modelled from the spec: handling the peer's header: on a validation fault
the session moves to `Closed` and records the error without touching the
receive callback; on success it proceeds to `Streaming`. -/
def sessionHandleHeader (sess : TcprosSession) (expMd5 expType : String)
    (hdr : TcprosHeader) (subscriberSide : Bool) : TcprosSession :=
  match validateTcprosHeader expMd5 expType hdr subscriberSide with
  | some e =>
      { sess with state := SessionState.Closed, errors := sess.errors ++ [e] }
  | none => { sess with state := SessionState.Streaming }

/-- C6: TCPROS header md5 validation.  On an md5sum mismatch that is not the
subscriber-side `*` wildcard, validation fails with a ProtocolHeader error
whose details carry both digests — whatever the `type` field holds, so
`md5sum` is checked before `type` — and the session transitions to `Closed`
without invoking the receive callback; an `md5sum` of `*` on the subscriber
side passes the md5 check and validation proceeds to the `type` check. -/
theorem C6_md5_validation (sess : TcprosSession) (expMd5 expType : String)
    (hdr : TcprosHeader) (sub : Bool)
    (hmm : hdr.md5sum ≠ expMd5)
    (hwc : ¬(sub = true ∧ hdr.md5sum = "*")) :
    validateTcprosHeader expMd5 expType hdr sub =
      some ⟨ErrKind.ProtocolHeader, [expMd5, hdr.md5sum]⟩ ∧
    (sessionHandleHeader sess expMd5 expType hdr sub).state = SessionState.Closed ∧
    (sessionHandleHeader sess expMd5 expType hdr sub).cb_invocations =
      sess.cb_invocations ∧
    (sessionHandleHeader sess expMd5 expType hdr sub).errors =
      sess.errors ++ [⟨ErrKind.ProtocolHeader, [expMd5, hdr.md5sum]⟩] ∧
    validateTcprosHeader expMd5 expType { hdr with md5sum := "*" } true =
      (if hdr.type = expType then none
       else some ⟨ErrKind.ProtocolHeader, [expType, hdr.type]⟩) := by
  have hcond : ¬(hdr.md5sum = expMd5 ∨ (sub = true ∧ hdr.md5sum = "*")) := by
    rintro (h | h)
    · exact hmm h
    · exact hwc h
  have hval : validateTcprosHeader expMd5 expType hdr sub =
      some ⟨ErrKind.ProtocolHeader, [expMd5, hdr.md5sum]⟩ := by
    rw [validateTcprosHeader, if_neg hcond]
  refine ⟨hval, ?_, ?_, ?_, ?_⟩
  · simp [sessionHandleHeader, hval]
  · simp [sessionHandleHeader, hval]
  · simp [sessionHandleHeader, hval]
  · rw [validateTcprosHeader, if_pos (Or.inr ⟨rfl, rfl⟩)]

/-- Witness for C6 at the spec's scenario 2: expected digest `aaaa`,
publisher reply carries `bbbb`. -/
theorem C6_md5_validation_witness :
    validateTcprosHeader "aaaa" "std_msgs/String"
      ⟨"/pub", "/chatter", "std_msgs/String", "bbbb", "d"⟩ true =
      some ⟨ErrKind.ProtocolHeader, ["aaaa", "bbbb"]⟩ ∧
    (sessionHandleHeader ⟨SessionState.ReadingHeader, 0, []⟩ "aaaa" "std_msgs/String"
      ⟨"/pub", "/chatter", "std_msgs/String", "bbbb", "d"⟩ true).state =
      SessionState.Closed ∧
    (sessionHandleHeader ⟨SessionState.ReadingHeader, 0, []⟩ "aaaa" "std_msgs/String"
      ⟨"/pub", "/chatter", "std_msgs/String", "bbbb", "d"⟩ true).cb_invocations =
      (⟨SessionState.ReadingHeader, 0, []⟩ : TcprosSession).cb_invocations ∧
    (sessionHandleHeader ⟨SessionState.ReadingHeader, 0, []⟩ "aaaa" "std_msgs/String"
      ⟨"/pub", "/chatter", "std_msgs/String", "bbbb", "d"⟩ true).errors =
      (⟨SessionState.ReadingHeader, 0, []⟩ : TcprosSession).errors ++
        [⟨ErrKind.ProtocolHeader, ["aaaa", "bbbb"]⟩] ∧
    validateTcprosHeader "aaaa" "std_msgs/String"
      { (⟨"/pub", "/chatter", "std_msgs/String", "bbbb", "d"⟩ : TcprosHeader) with
        md5sum := "*" } true =
      (if (⟨"/pub", "/chatter", "std_msgs/String", "bbbb", "d"⟩ : TcprosHeader).type =
          "std_msgs/String" then none
       else some ⟨ErrKind.ProtocolHeader, ["std_msgs/String",
        (⟨"/pub", "/chatter", "std_msgs/String", "bbbb", "d"⟩ : TcprosHeader).type]⟩) :=
  C6_md5_validation ⟨SessionState.ReadingHeader, 0, []⟩ "aaaa" "std_msgs/String"
    ⟨"/pub", "/chatter", "std_msgs/String", "bbbb", "d"⟩ true
    (by decide) (by decide)

/-! ## Event engine loop

Modelled from the spec: `cRosNodeStart` is not part of the shipped sources.
Spec section 4.8: the engine is a single loop; each iteration performs its
socket work (abstracted here into the environment, which in particular covers
runs where the master is unreachable and every registration RPC fails) and
then polls the caller-supplied exit flag once; the loop also stops once the
user deadline has elapsed.  `CROS_INFINITE_TIMEOUT` is the `none` deadline.
-/

/-- The environment of an engine run: the exit-flag value the loop observes
at iteration `k`, and the clock value at iteration `k`.  All socket and RPC
activity of the loop body is abstracted into the environment. -/
structure EngineEnv where
  exit_flag : Nat → Bool
  now : Nat → Nat

/-- The loop's exit condition at iteration `k`: the user deadline has elapsed
or the exit flag is observed set. -/
def engineExitCond (env : EngineEnv) (deadline : Option Nat) (k : Nat) : Bool :=
  (match deadline with
   | some d => decide (d ≤ env.now k)
   | none => false) || env.exit_flag k

/-- The engine loop from iteration `k`: runs until the exit condition holds,
returning the iteration at which it returned, with explicit fuel (`none`
means the loop was still running when the fuel ran out). -/
def engineRunFrom (env : EngineEnv) (deadline : Option Nat) :
    Nat → Nat → Option Nat
  | 0, _ => none
  | fuel + 1, k =>
      if engineExitCond env deadline k then some k
      else engineRunFrom env deadline fuel (k + 1)

theorem engineRunFrom_terminates (env : EngineEnv) (deadline : Option Nat) :
    ∀ (fuel k j : Nat), k ≤ j → j < k + fuel →
      engineExitCond env deadline j = true →
      ∃ r, r ≤ j ∧ engineRunFrom env deadline fuel k = some r := by
  intro fuel
  induction fuel with
  | zero => intro k j h1 h2 _; omega
  | succ f ih =>
      intro k j h1 h2 hj
      by_cases hk : engineExitCond env deadline k = true
      · exact ⟨k, h1, by simp [engineRunFrom, hk]⟩
      · have hkj : k ≠ j := fun he => hk (he ▸ hj)
        obtain ⟨r, hr1, hr2⟩ := ih (k + 1) j (by omega) (by omega) hj
        exact ⟨r, hr1, by simp [engineRunFrom, hk, hr2]⟩

theorem engineRunFrom_mono (env : EngineEnv) (deadline : Option Nat) :
    ∀ (fuel fuel2 k r : Nat), fuel ≤ fuel2 →
      engineRunFrom env deadline fuel k = some r →
      engineRunFrom env deadline fuel2 k = some r := by
  intro fuel
  induction fuel with
  | zero => intro fuel2 k r _ h; simp [engineRunFrom] at h
  | succ f ih =>
      intro fuel2 k r hle h
      cases fuel2 with
      | zero => omega
      | succ f2 =>
          by_cases hk : engineExitCond env deadline k = true
          · simp [engineRunFrom, hk] at h ⊢
            exact h
          · simp [engineRunFrom, hk] at h ⊢
            exact ih f2 (k + 1) r (by omega) h

/-- C7: node_start termination.  For every environment (in particular ones
where the master is unreachable and all RPCs fail), once the exit flag is
observed set at some iteration `j`, or the deadline has elapsed by iteration
`j`, the engine loop returns at an iteration `r ≤ j` — within the very loop
tick that observes the flag — for every sufficient fuel bound. -/
theorem C7_node_start_termination (env : EngineEnv) (deadline : Option Nat)
    (j : Nat)
    (h : env.exit_flag j = true ∨ ∃ d, deadline = some d ∧ d ≤ env.now j) :
    ∃ r, r ≤ j ∧ ∀ fuel, j < fuel →
      engineRunFrom env deadline fuel 0 = some r := by
  have hj : engineExitCond env deadline j = true := by
    rcases h with h | ⟨d, hd, hle⟩
    · simp [engineExitCond, h]
    · simp [engineExitCond, hd, hle]
  obtain ⟨r, hr1, hr2⟩ := engineRunFrom_terminates env deadline (j + 1) 0 j
    (Nat.zero_le _) (by omega) hj
  exact ⟨r, hr1, fun fuel hf =>
    engineRunFrom_mono env deadline (j + 1) fuel 0 r (by omega) hr2⟩

/-- Witness for C7: an exit flag toggled at iteration 2, infinite timeout. -/
theorem C7_node_start_termination_witness :
    ∃ r, r ≤ 2 ∧ ∀ fuel, 2 < fuel →
      engineRunFrom ⟨fun k => decide (2 ≤ k), fun _ => 0⟩ none fuel 0 = some r :=
  C7_node_start_termination ⟨fun k => decide (2 ≤ k), fun _ => 0⟩ none 2
    (Or.inl (by decide))

/-! ## Sample harness: performance-test.c

The following definitions are embedded directly from the C source of
`src/samples/performance-test.c`.
-/

/-- The outcomes of the external calls `main` performs during one run
(performance-test.c lines 313-533). -/
structure MainEnv where
  op_mode : Char
  node_create_ok : Bool
  wait_port_ok : Bool
  register_ok : Bool
  node_start_ok : Bool
  msg_fields_ok : Bool
  send_ok : Bool
  node_destroy_ok : Bool
  deriving DecidableEq

/-- The op-mode characters `main` accepts (lines 329-341). -/
def validOpMode (c : Char) : Bool := c == 's' || c == 'r' || c == 'p' || c == 'c'

def EXIT_SUCCESS : Nat := 0

def EXIT_FAILURE : Nat := 1

/-- Shallow embedding of `main` (performance-test.c lines 313-533): the exit
code as a function of the outcomes of the external calls.  The engine-run
(`cRosNodeStart`), message-field and send/service-call errors are printed by
the C code but do not influence the return value. -/
def mainExit (e : MainEnv) : Nat :=
  if !validOpMode e.op_mode then EXIT_FAILURE
  else if !e.node_create_ok then EXIT_FAILURE
  else if !e.wait_port_ok then EXIT_FAILURE
  else if e.op_mode == 's' then
    if !e.register_ok then EXIT_FAILURE
    else if !e.node_destroy_ok then EXIT_FAILURE else EXIT_SUCCESS
  else if e.op_mode == 'r' then
    if !e.register_ok then EXIT_FAILURE
    else if !e.node_destroy_ok then EXIT_FAILURE else EXIT_SUCCESS
  else if e.op_mode == 'p' then
    if !e.register_ok then EXIT_FAILURE
    else if !e.node_destroy_ok then EXIT_FAILURE else EXIT_SUCCESS
  else
    if !e.register_ok then EXIT_FAILURE
    else if !e.node_destroy_ok then EXIT_FAILURE else EXIT_SUCCESS

/-- Whether every external step performed on the executed path of `main`
succeeded — the claim's notion of "the run succeeded".  Every mode runs the
engine at least once via `cRosNodeStart`; the publisher and caller modes
additionally access message fields and send messages / call services. -/
def runSucceeded (e : MainEnv) : Bool :=
  validOpMode e.op_mode && e.node_create_ok && e.wait_port_ok && e.register_ok &&
  e.node_start_ok &&
  (if e.op_mode == 'p' || e.op_mode == 'c' then e.msg_fields_ok && e.send_ok
   else true) &&
  e.node_destroy_ok

/-- C8 counterexample: in subscriber mode, when `cRosNodeStart` returns an
error but node creation, registration and destroy succeed, `main` prints the
error yet still returns EXIT_SUCCESS (lines 374-378 discard the engine error
before the common destroy path at 515-522) — so the run did not succeed but
the exit code is 0, refuting "exit code 0 exactly when the run succeeded". -/
theorem C8_exit_code_counterexample :
    mainExit ⟨'s', true, true, true, false, true, true, true⟩ = EXIT_SUCCESS ∧
    runSucceeded ⟨'s', true, true, true, false, true, true, true⟩ = false := by
  decide

/-- C8 amended: `main` returns 0 iff the chosen mode is valid and node
creation, the master-port wait, the mode's registration call and the final
node destroy all succeed; engine-run, message-field and send/service-call
errors are printed but never change the exit code. -/
theorem C8_exit_code_amended (e : MainEnv) :
    mainExit e = EXIT_SUCCESS ↔
      (validOpMode e.op_mode && e.node_create_ok && e.wait_port_ok &&
        e.register_ok && e.node_destroy_ok) = true := by
  obtain ⟨m, c1, c2, c3, c4, c5, c6, c7⟩ := e
  simp only [mainExit, validOpMode]
  by_cases h1 : (m == 's') = true <;> by_cases h2 : (m == 'r') = true <;>
    by_cases h3 : (m == 'p') = true <;> by_cases h4 : (m == 'c') = true <;>
    cases c1 <;> cases c2 <;> cases c3 <;> cases c7 <;>
    simp_all [EXIT_SUCCESS, EXIT_FAILURE]

/-- MAX_TIME_STAMPS of performance-test.c line 34. -/
def MAX_TIME_STAMPS : Nat := 20

/-- MAX_REPS of performance-test.c line 35. -/
def MAX_REPS : Nat := 30

/-- The harness globals written by `callback_sub` (lines 128-147) and
`callback_provider_add_two_ints` (lines 171-203). -/
structure HarnessState where
  n_sub_time_stamps : Nat
  n_sub_reps : Nat
  exit_flag : Bool
  deriving DecidableEq

/-- The globals at program start (lines 32, 38, 39). -/
def harnessInitState : HarnessState := ⟨0, 0, false⟩

/-- One invocation of the timestamp bookkeeping shared by `callback_sub` and
`callback_provider_add_two_ints`: the write into `sub_time_stamps` targets
row `n_sub_time_stamps` and column `n_sub_reps` as valued at entry; then
`n_sub_reps` is incremented and wrapped at MAX_REPS (incrementing
`n_sub_time_stamps`), and `exit_flag` is set once `n_sub_time_stamps`
reaches MAX_TIME_STAMPS. -/
def callbackTimestampStep (s : HarnessState) : HarnessState :=
  let reps1 := s.n_sub_reps + 1
  let reps2 := if reps1 ≥ MAX_REPS then 0 else reps1
  let stamps2 := if reps1 ≥ MAX_REPS then s.n_sub_time_stamps + 1
    else s.n_sub_time_stamps
  let flag2 := if stamps2 ≥ MAX_TIME_STAMPS then true else s.exit_flag
  ⟨stamps2, reps2, flag2⟩

/-- The harness globals after `n` callback invocations. -/
def harnessIter : Nat → HarnessState
  | 0 => harnessInitState
  | n + 1 => callbackTimestampStep (harnessIter n)

theorem callbackTimestampStep_mid (s : HarnessState)
    (ht : s.n_sub_time_stamps < 20) (hr : s.n_sub_reps + 1 < 30) :
    callbackTimestampStep s =
      ⟨s.n_sub_time_stamps, s.n_sub_reps + 1, s.exit_flag⟩ := by
  have h1 : ¬(s.n_sub_reps + 1 ≥ MAX_REPS) := by unfold MAX_REPS; omega
  have h2 : ¬(s.n_sub_time_stamps ≥ MAX_TIME_STAMPS) := by
    unfold MAX_TIME_STAMPS; omega
  simp only [callbackTimestampStep, if_neg h1, if_neg h2]

theorem callbackTimestampStep_wrap (s : HarnessState)
    (hr : s.n_sub_reps + 1 ≥ 30) :
    callbackTimestampStep s = ⟨s.n_sub_time_stamps + 1, 0,
      if s.n_sub_time_stamps + 1 ≥ MAX_TIME_STAMPS then true
      else s.exit_flag⟩ := by
  have h1 : s.n_sub_reps + 1 ≥ MAX_REPS := by unfold MAX_REPS; omega
  simp only [callbackTimestampStep, if_pos h1]

theorem harnessIter_mid : ∀ (t : Nat), t < 20 → ∀ (r : Nat), r < 30 →
    harnessIter (30 * t + r) = ⟨t, r, false⟩ := by
  intro t
  induction t with
  | zero =>
      intro _ r
      induction r with
      | zero => intro _; rfl
      | succ r ihr =>
          intro hr
          have h1 : 30 * 0 + (r + 1) = (30 * 0 + r) + 1 := by omega
          rw [h1, harnessIter, ihr (by omega)]
          exact callbackTimestampStep_mid ⟨0, r, false⟩
            (by show (0 : Nat) < 20; omega) hr
  | succ t iht =>
      intro ht r
      induction r with
      | zero =>
          intro _
          have h1 : 30 * (t + 1) + 0 = (30 * t + 29) + 1 := by ring
          rw [h1, harnessIter, iht (by omega) 29 (by omega)]
          rw [callbackTimestampStep_wrap ⟨t, 29, false⟩
            (by show (29 : Nat) + 1 ≥ 30; omega)]
          rw [if_neg (by unfold MAX_TIME_STAMPS; show ¬(t + 1 ≥ 20); omega)]
      | succ r ihr =>
          intro hr
          have h1 : 30 * (t + 1) + (r + 1) = (30 * (t + 1) + r) + 1 := by omega
          rw [h1, harnessIter, ihr (by omega)]
          exact callbackTimestampStep_mid ⟨t + 1, r, false⟩ ht (by exact hr)

theorem harnessIter_600 : harnessIter 600 = ⟨20, 0, true⟩ := by
  have h1 : (600 : Nat) = (30 * 19 + 29) + 1 := by norm_num
  rw [h1, harnessIter, harnessIter_mid 19 (by omega) 29 (by omega)]
  rw [callbackTimestampStep_wrap ⟨19, 29, false⟩ (by decide)]
  rw [if_pos (by unfold MAX_TIME_STAMPS; show 19 + 1 ≥ 20; omega)]

/-- C9 counterexample: after 600 = MAX_TIME_STAMPS * MAX_REPS invocations the
row index `n_sub_time_stamps` equals MAX_TIME_STAMPS, so a 601st invocation
(nothing in the callbacks prevents it once `exit_flag` is set) would write
`sub_time_stamps[20][0]`, outside the array bounds — refuting the claim for
every sequence of invocations. -/
theorem C9_bounds_counterexample :
    (harnessIter 600).n_sub_time_stamps = MAX_TIME_STAMPS ∧
    ¬((harnessIter 600).n_sub_time_stamps < MAX_TIME_STAMPS ∧
      (harnessIter 600).n_sub_reps < MAX_REPS) := by
  rw [harnessIter_600]
  refine ⟨rfl, ?_⟩
  rintro ⟨h1, _⟩
  simp [MAX_TIME_STAMPS] at h1

theorem callbackTimestampStep_inv (s : HarnessState)
    (h1 : s.n_sub_reps < MAX_REPS)
    (h2 : s.exit_flag = false → s.n_sub_time_stamps < MAX_TIME_STAMPS) :
    (callbackTimestampStep s).n_sub_reps < MAX_REPS ∧
    ((callbackTimestampStep s).exit_flag = false →
      (callbackTimestampStep s).n_sub_time_stamps < MAX_TIME_STAMPS) := by
  unfold callbackTimestampStep MAX_REPS MAX_TIME_STAMPS at *
  by_cases hr : s.n_sub_reps + 1 ≥ 30
  · simp only [if_pos hr]
    by_cases hs : s.n_sub_time_stamps + 1 ≥ 20
    · simp only [if_pos hs]
      exact ⟨by omega, fun hf => absurd hf (by simp)⟩
    · simp only [if_neg hs]
      exact ⟨by omega, fun _ => by omega⟩
  · simp only [if_neg hr]
    by_cases hs : s.n_sub_time_stamps ≥ 20
    · simp only [if_pos hs]
      exact ⟨by omega, fun hf => absurd hf (by simp)⟩
    · simp only [if_neg hs]
      exact ⟨by omega, fun _ => by omega⟩

/-- C9 amended: every callback invocation entered while `exit_flag` is still
clear writes within the bounds of `sub_time_stamps`: its column index
`n_sub_reps` is below MAX_REPS unconditionally, and its row index
`n_sub_time_stamps` is below MAX_TIME_STAMPS whenever `exit_flag` is 0 at
entry — the harness relies on the engine not invoking the callbacks again
once the flag is set. -/
theorem C9_bounds_amended (n : Nat) :
    (harnessIter n).n_sub_reps < MAX_REPS ∧
    ((harnessIter n).exit_flag = false →
      (harnessIter n).n_sub_time_stamps < MAX_TIME_STAMPS) := by
  induction n with
  | zero =>
      refine ⟨?_, fun _ => ?_⟩ <;>
        simp [harnessIter, harnessInitState, MAX_REPS, MAX_TIME_STAMPS]
  | succ n ih =>
      exact callbackTimestampStep_inv (harnessIter n) ih.1 ih.2

/-- Witness for C9 (amended): the fourth invocation's write indices are in
bounds. -/
theorem C9_bounds_amended_witness :
    (harnessIter 3).n_sub_reps < MAX_REPS ∧
    (harnessIter 3).n_sub_time_stamps < MAX_TIME_STAMPS :=
  ⟨(C9_bounds_amended 3).1, (C9_bounds_amended 3).2 (by decide)⟩

/-- Result of one invocation of the service-provider callback body: the value
written to the response's `sum` field, or the fact that a NULL `b_field`
pointer was dereferenced. -/
inductive ProviderOutcome where
  | ok : Option Int → ProviderOutcome
  | null_deref : ProviderOutcome
  deriving DecidableEq

/-- Shallow embedding of the guard and field accesses of
`callback_provider_add_two_ints` (performance-test.c lines 180-197).  The C
guard at line 184 is `if(a_field != NULL && a_field != NULL)`: it tests
`a_field` twice and never tests `b_field`; inside the guard both
`a_field->data.as_int64` and `b_field->data.as_int64` are read.  `none`
models a NULL field pointer returned by `cRosMessageGetField`; the sum is
stored only when the response's `sum` field is non-null. -/
def callback_provider_add_two_ints (a_field b_field sum_field : Option Int) :
    ProviderOutcome :=
  if a_field.isSome && a_field.isSome then
    match a_field, b_field with
    | some a, some b =>
        ProviderOutcome.ok (if sum_field.isSome then some (a + b) else none)
    | _, none => ProviderOutcome.null_deref
    | none, some _ => ProviderOutcome.ok none
  else ProviderOutcome.ok none

/-- C10: the null guard does not protect `b_field`.  With a request whose
`"a"` field resolves (value 3) and whose `"b"` field lookup returns NULL, the
guard of line 184 — which checks `a_field` twice, an evident slip for
`b_field != NULL` given the correct `a_field != NULL && b_field != NULL`
guard of `callback_caller_add_two_ints` at line 213 — passes, and
`b_field->data.as_int64` is read from a NULL pointer. -/
theorem C10_null_b_field_deref :
    callback_provider_add_two_ints (some 3) none (some 0) =
      ProviderOutcome.null_deref := rfl

end Cros
